import Mathlib

set_option autoImplicit false

/-!
Verification of core behaviours of the lading load-generation rig.

Each definition below is a shallow embedding of a function from the
repository's Rust source; theorems settle the specification claims
against these embeddings.
-/

namespace Lading

/-!
## DogStatsD payload serialiser (`src/lading/src/payload/dogstatsd.rs`)

`DogStatsD::to_bytes` (lines 386-407) draws members from a
`MemberGenerator` and writes each `Display`-encoded member plus a
trailing newline, while the encoded line fits in the remaining byte
budget.  The member generator (built from seed and configuration) is a
pure function of the RNG state; we abstract it as `gen : ρ → List Char × ρ`
returning the encoded member and the advanced RNG state.  The writer is
abstracted as a fallible `write` function, mirroring the `?` on
`writeln!`; an accumulating writer never fails.
-/

namespace DogStatsD

/-- Embedding of the loop of `DogStatsD::to_bytes`: while the encoded
member plus its newline fits in `bytesRemaining` (the `checked_sub`),
write it and deduct its length; otherwise break with `Ok`, i.e. `some`.
A writer error (`none`) propagates. -/
def toBytesGo {ρ σ : Type} (gen : ρ → List Char × ρ) (write : σ → List Char → Option σ)
    (rng : ρ) (bytesRemaining : Nat) (w : σ) : Option σ :=
  if h : (gen rng).1.length + 1 ≤ bytesRemaining then
    match write w ((gen rng).1 ++ ['\n']) with
    | none => none
    | some w' => toBytesGo gen write (gen rng).2 (bytesRemaining - ((gen rng).1.length + 1)) w'
  else
    some w
termination_by bytesRemaining
decreasing_by omega

/-- The newline-terminated records that `to_bytes` writes, in order:
one `encoding ++ "\n"` per loop iteration that passes the
`checked_sub` test. -/
def writtenRecords {ρ : Type} (gen : ρ → List Char × ρ) (rng : ρ)
    (bytesRemaining : Nat) : List (List Char) :=
  if h : (gen rng).1.length + 1 ≤ bytesRemaining then
    ((gen rng).1 ++ ['\n']) ::
      writtenRecords gen (gen rng).2 (bytesRemaining - ((gen rng).1.length + 1))
  else
    []
termination_by bytesRemaining
decreasing_by omega

/-- All bytes `to_bytes` writes for a given RNG state and budget. -/
def writtenBytes {ρ : Type} (gen : ρ → List Char × ρ) (rng : ρ) (bytesRemaining : Nat) :
    List Char :=
  (writtenRecords gen rng bytesRemaining).flatten

/-- Number of iterations of the `to_bytes` loop, the final
budget-exhausted iteration included. -/
def toBytesIters {ρ : Type} (gen : ρ → List Char × ρ) (rng : ρ) (bytesRemaining : Nat) :
    Nat :=
  if h : (gen rng).1.length + 1 ≤ bytesRemaining then
    1 + toBytesIters gen (gen rng).2 (bytesRemaining - ((gen rng).1.length + 1))
  else
    1
termination_by bytesRemaining
decreasing_by omega

/-- The accumulating (infallible) writer: `Vec<u8>` as used in the
repository's own `payload_not_exceed_max_bytes` test. -/
def accWrite : List Char → List Char → Option (List Char) :=
  fun acc s => some (acc ++ s)

theorem toBytesGo_acc {ρ : Type} (gen : ρ → List Char × ρ) :
    ∀ (n : Nat) (rng : ρ) (w : List Char),
      toBytesGo gen accWrite rng n w = some (w ++ writtenBytes gen rng n) := by
  intro n
  induction n using Nat.strong_induction_on with
  | _ n ih =>
    intro rng w
    rw [toBytesGo, writtenBytes, writtenRecords]
    by_cases h : (gen rng).1.length + 1 ≤ n
    · simp only [h, dif_pos, accWrite]
      have hlt : n - ((gen rng).1.length + 1) < n := by omega
      rw [ih _ hlt]
      simp [writtenBytes, List.append_assoc]
    · simp [h]

theorem writtenBytes_length_le {ρ : Type} (gen : ρ → List Char × ρ) :
    ∀ (n : Nat) (rng : ρ), (writtenBytes gen rng n).length ≤ n := by
  intro n
  induction n using Nat.strong_induction_on with
  | _ n ih =>
    intro rng
    rw [writtenBytes, writtenRecords]
    by_cases h : (gen rng).1.length + 1 ≤ n
    · have hlt : n - ((gen rng).1.length + 1) < n := by omega
      have hrec := ih _ hlt (gen rng).2
      rw [writtenBytes] at hrec
      simp only [h, dif_pos, List.flatten_cons, List.length_append, List.length_cons,
        List.length_nil]
      omega
    · simp [h]

theorem writtenRecords_take_length_le {ρ : Type} (gen : ρ → List Char × ρ) (n : Nat)
    (rng : ρ) (i : Nat) :
    (((writtenRecords gen rng n).take i).flatten).length ≤ n := by
  have h1 := writtenBytes_length_le gen n rng
  rw [writtenBytes] at h1
  have h2 : ((writtenRecords gen rng n).take i).flatten.length +
      ((writtenRecords gen rng n).drop i).flatten.length =
      (writtenRecords gen rng n).flatten.length := by
    rw [← List.length_append, ← List.flatten_append, List.take_append_drop]
  omega

/-- C1: for every member generator (hence every seed and generator
configuration) and every byte budget `maxBytes`, `to_bytes` over an
infallible writer returns `Ok` (running out of budget is not an error),
the total number of bytes written is at most `maxBytes`, and every
record (trailing newline included) is written only when it fits
entirely in the remaining budget: every prefix of the record sequence
still fits in `maxBytes`. -/
theorem dogstatsd_to_bytes_budget_bound {ρ : Type} (gen : ρ → List Char × ρ) (rng : ρ)
    (maxBytes : Nat) :
    toBytesGo gen accWrite rng maxBytes [] = some (writtenBytes gen rng maxBytes) ∧
    (writtenBytes gen rng maxBytes).length ≤ maxBytes ∧
    ∀ i : Nat, (((writtenRecords gen rng maxBytes).take i).flatten).length ≤ maxBytes := by
  refine ⟨?_, writtenBytes_length_le gen maxBytes rng,
    fun i => writtenRecords_take_length_le gen maxBytes rng i⟩
  rw [toBytesGo_acc gen maxBytes rng, List.nil_append]

/-- C2: the byte sequence `to_bytes` appends to its writer is a
function of the RNG state and the byte budget alone: whatever the two
writers already hold, both calls append the identical sequence
`writtenBytes gen rng maxBytes`. -/
theorem dogstatsd_to_bytes_deterministic {ρ : Type} (gen : ρ → List Char × ρ) (rng : ρ)
    (maxBytes : Nat) (w₁ w₂ : List Char) :
    toBytesGo gen accWrite rng maxBytes w₁ = some (w₁ ++ writtenBytes gen rng maxBytes) ∧
    toBytesGo gen accWrite rng maxBytes w₂ = some (w₂ ++ writtenBytes gen rng maxBytes) :=
  ⟨toBytesGo_acc gen maxBytes rng w₁, toBytesGo_acc gen maxBytes rng w₂⟩

/-- C10: `to_bytes` terminates for every finite byte budget: each loop
iteration either deducts at least one byte (`encoding.length + 1 ≥ 1`)
from the remaining budget or exits, so the loop runs at most
`maxBytes + 1` iterations. -/
theorem dogstatsd_to_bytes_terminates {ρ : Type} (gen : ρ → List Char × ρ) (maxBytes : Nat)
    (rng : ρ) : toBytesIters gen rng maxBytes ≤ maxBytes + 1 := by
  induction maxBytes using Nat.strong_induction_on generalizing rng with
  | _ n ih =>
    rw [toBytesIters]
    by_cases h : (gen rng).1.length + 1 ≤ n
    · have hlt : n - ((gen rng).1.length + 1) < n := by omega
      have hrec := ih _ hlt (gen rng).2
      simp only [h, dif_pos]
      omega
    · simp [h]

end DogStatsD

/-!
## CLI `KEY=VAL,…` parsing (`src/lading/src/bin/lading.rs`)

`CliKeyValues::from_str` (lines 54-71) splits the input on `,`, skips
empty segments, splits each segment on `=`, fails when the `=` is
missing, and inserts the first two pieces into a hash map (an insert
replaces the value of an existing key).  `Display` (lines 45-52)
renders every entry as `key=value,`.  Strings are modelled as
`List Char`; the hash map as an association list whose `mapInsert`
replaces in place or appends.
-/

namespace Cli

/-- Rust `str::split(c)`: the list of (possibly empty) segments between
occurrences of `c`; always non-empty, `split "" = [""]`. -/
def splitOnChar (c : Char) : List Char → List (List Char)
  | [] => [[]]
  | x :: xs =>
    match splitOnChar c xs with
    | [] => [[]]
    | h :: t => if x = c then [] :: h :: t else (x :: h) :: t

/-- Map insert: replace the value of an existing key in place, else
append the new entry. -/
def mapInsert {α β : Type} [DecidableEq α] (m : List (α × β)) (k : α) (v : β) :
    List (α × β) :=
  match m with
  | [] => [(k, v)]
  | (k', v') :: rest => if k' = k then (k, v) :: rest else (k', v') :: mapInsert rest k v

/-- The segment-processing loop of `CliKeyValues::from_str`: skip empty
segments; a segment whose `=`-split has a single piece (no `=`) fails;
otherwise insert the first two pieces as key and value. -/
def segsToMap : List (List Char) → List (List Char × List Char) →
    Option (List (List Char × List Char))
  | [], acc => some acc
  | seg :: rest, acc =>
    if seg = [] then segsToMap rest acc
    else
      match splitOnChar '=' seg with
      | [] => none
      | [_] => none
      | k :: v :: _ => segsToMap rest (mapInsert acc k v)

/-- Embedding of `CliKeyValues::from_str`. -/
def cliKeyValuesFromStr (input : List Char) : Option (List (List Char × List Char)) :=
  segsToMap (splitOnChar ',' input) []

/-- Embedding of `CliKeyValues`'s `Display`: `key=value,` for every
entry (the hash map's iteration order is arbitrary; this model uses the
association list's order, and claims compare up to permutation). -/
def cliKeyValuesDisplay (m : List (List Char × List Char)) : List Char :=
  (m.map (fun p => p.1 ++ '=' :: p.2 ++ [','])).flatten

/-- Split at the first occurrence of `c`: `none` when `c` is absent. -/
def splitFirst (c : Char) : List Char → Option (List Char × List Char)
  | [] => none
  | x :: xs =>
    if x = c then some ([], xs)
    else
      match splitFirst c xs with
      | none => none
      | some (p1, p2) => some (x :: p1, p2)

/-- The `key=value` pairs of a segment list: one per non-empty segment,
the key being everything before the first `=` and the value everything
after it. -/
def segPairsF (segs : List (List Char)) : List (List Char × List Char) :=
  segs.filterMap (fun seg => if seg = [] then none else splitFirst '=' seg)

/-- The `key=value` pairs a string carries, one per non-empty
`,`-segment. -/
def strPairs (s : List Char) : List (List Char × List Char) :=
  segPairsF (splitOnChar ',' s)

/-- The pairs as the parser reads them: first two `=`-split pieces of
every non-empty segment. -/
def parsePairs (segs : List (List Char)) : List (List Char × List Char) :=
  segs.filterMap (fun seg =>
    if seg = [] then none
    else
      match splitOnChar '=' seg with
      | k :: v :: _ => some (k, v)
      | _ => none)

theorem splitOnChar_ne_nil (c : Char) (s : List Char) : splitOnChar c s ≠ [] := by
  cases s with
  | nil => simp [splitOnChar]
  | cons x xs =>
    rw [splitOnChar]
    rcases h : splitOnChar c xs with _ | ⟨h', t⟩
    · simp
    · by_cases hx : x = c <;> simp [hx]

theorem splitOnChar_append_sep (c : Char) (s : List Char) :
    splitOnChar c (s ++ [c]) = splitOnChar c s ++ [[]] := by
  induction s with
  | nil =>
    simp [splitOnChar]
  | cons x xs ih =>
    rw [List.cons_append, splitOnChar, ih, splitOnChar]
    rcases h : splitOnChar c xs with _ | ⟨h', t⟩
    · exact absurd h (splitOnChar_ne_nil c xs)
    · by_cases hx : x = c <;> simp [hx]

theorem segsToMap_append_nil (segs : List (List Char)) :
    ∀ acc, segsToMap (segs ++ [[]]) acc = segsToMap segs acc := by
  induction segs with
  | nil => intro acc; simp [segsToMap]
  | cons seg rest ih =>
    intro acc
    rw [List.cons_append, segsToMap, segsToMap]
    by_cases hseg : seg = []
    · simp only [hseg, if_pos rfl]
      exact ih acc
    · simp only [if_neg hseg]
      rcases h : splitOnChar '=' seg with _ | ⟨k, _ | ⟨v, t⟩⟩
      · rfl
      · rfl
      · exact ih _

theorem splitOnChar_of_not_mem {c : Char} {s : List Char} (h : c ∉ s) :
    splitOnChar c s = [s] := by
  induction s with
  | nil => rfl
  | cons x xs ih =>
    have hx : x ≠ c := fun hc => h (hc ▸ List.mem_cons_self x xs)
    have hxs : c ∉ xs := fun hc => h (List.mem_cons_of_mem x hc)
    rw [splitOnChar, ih hxs]
    simp [hx]

theorem splitOnChar_singleton {c : Char} {s p : List Char}
    (h : splitOnChar c s = [p]) : s = p := by
  induction s generalizing p with
  | nil => simpa [splitOnChar] using h.symm
  | cons x xs ih =>
    rw [splitOnChar] at h
    rcases hs : splitOnChar c xs with _ | ⟨h', t⟩
    · exact absurd hs (splitOnChar_ne_nil c xs)
    · rw [hs] at h
      by_cases hx : x = c
      · simp [hx] at h
      · simp only [if_neg hx] at h
        obtain ⟨hp, ht⟩ := List.cons.injEq .. ▸ h
        subst ht
        have := ih (p := h') (by rw [hs])
        simp_all

theorem splitOnChar_sep_not_mem (c : Char) (s : List Char) :
    ∀ p ∈ splitOnChar c s, c ∉ p := by
  induction s with
  | nil => simp [splitOnChar]
  | cons x xs ih =>
    intro p hp
    rw [splitOnChar] at hp
    rcases hs : splitOnChar c xs with _ | ⟨h', t⟩
    · exact absurd hs (splitOnChar_ne_nil c xs)
    · rw [hs] at hp
      by_cases hx : x = c
      · simp only [hx, if_pos rfl] at hp
        rcases List.mem_cons.mp hp with hp | hp
        · simp [hp]
        · exact ih p (hs ▸ hp)
      · simp only [if_neg hx] at hp
        rcases List.mem_cons.mp hp with hp | hp
        · subst hp
          intro hc
          rcases List.mem_cons.mp hc with hc | hc
          · exact hx hc.symm
          · exact ih h' (hs ▸ List.mem_cons_self h' t) hc
        · exact ih p (hs ▸ List.mem_cons_of_mem h' hp)

theorem splitOnChar_mem_chars {c : Char} {s : List Char} :
    ∀ p ∈ splitOnChar c s, ∀ x ∈ p, x ∈ s := by
  induction s with
  | nil => simp [splitOnChar]
  | cons y ys ih =>
    intro p hp x hx
    rw [splitOnChar] at hp
    rcases hs : splitOnChar c ys with _ | ⟨h', t⟩
    · exact absurd hs (splitOnChar_ne_nil c ys)
    · rw [hs] at hp
      by_cases hy : y = c
      · simp only [hy, if_pos rfl] at hp
        rcases List.mem_cons.mp hp with hp | hp
        · simp [hp] at hx
        · exact List.mem_cons_of_mem y (ih p (hs ▸ hp) x hx)
      · simp only [if_neg hy] at hp
        rcases List.mem_cons.mp hp with hp | hp
        · subst hp
          rcases List.mem_cons.mp hx with hx | hx
          · exact hx ▸ List.mem_cons_self y ys
          · exact List.mem_cons_of_mem y (ih h' (hs ▸ List.mem_cons_self h' t) x hx)
        · exact List.mem_cons_of_mem y (ih p (hs ▸ List.mem_cons_of_mem h' hp) x hx)

theorem splitOnChar_two {c : Char} {s a b : List Char}
    (h : splitOnChar c s = [a, b]) : s = a ++ c :: b := by
  induction s generalizing a with
  | nil => simp [splitOnChar] at h
  | cons x xs ih =>
    rw [splitOnChar] at h
    rcases hs : splitOnChar c xs with _ | ⟨h', t⟩
    · exact absurd hs (splitOnChar_ne_nil c xs)
    · rw [hs] at h
      by_cases hx : x = c
      · simp only [hx, if_pos rfl] at h
        injection h with ha h2
        injection h2 with hb ht
        subst ht
        have hxs : xs = b := splitOnChar_singleton (hb ▸ hs)
        simp [← ha, hx, hxs]
      · simp only [if_neg hx] at h
        injection h with ha ht
        have hxs := ih (a := h') (by rw [hs, ht])
        rw [← ha, hxs]
        rfl

theorem splitFirst_append {c : Char} {a : List Char} (b : List Char) (h : c ∉ a) :
    splitFirst c (a ++ c :: b) = some (a, b) := by
  induction a with
  | nil => simp [splitFirst]
  | cons x a' ih =>
    have hx : x ≠ c := fun hc => h (hc ▸ List.mem_cons_self x a')
    have ha' : c ∉ a' := fun hc => h (List.mem_cons_of_mem x hc)
    rw [List.cons_append, splitFirst, if_neg hx, ih ha']

theorem splitFirst_eq {c : Char} {s a b : List Char}
    (h : splitFirst c s = some (a, b)) : s = a ++ c :: b ∧ c ∉ a := by
  induction s generalizing a with
  | nil => simp [splitFirst] at h
  | cons x xs ih =>
    rw [splitFirst] at h
    by_cases hx : x = c
    · rw [if_pos hx] at h
      injection h with h2
      injection h2 with ha hb
      subst hb
      simp [← ha, hx]
    · rw [if_neg hx] at h
      rcases hfs : splitFirst c xs with _ | ⟨p1, p2⟩
      · rw [hfs] at h
        exact Option.noConfusion h
      · rw [hfs] at h
        injection h with h2
        injection h2 with ha hb
        subst hb
        obtain ⟨hxs, hnc⟩ := ih hfs
        constructor
        · rw [← ha, hxs]; rfl
        · rw [← ha]
          intro hc
          rcases List.mem_cons.mp hc with hc | hc
          · exact hx hc.symm
          · exact hnc hc

theorem mapInsert_of_not_mem {α β : Type} [DecidableEq α] {m : List (α × β)} {k : α}
    (v : β) (h : k ∉ m.map Prod.fst) : mapInsert m k v = m ++ [(k, v)] := by
  induction m with
  | nil => rfl
  | cons p rest ih =>
    have hk : p.1 ≠ k := by
      intro hc
      exact h (by simp [hc])
    have hrest : k ∉ rest.map Prod.fst := by
      intro hc
      exact h (by simp [hc])
    rw [show p = (p.1, p.2) from rfl, mapInsert, if_neg hk, ih hrest]
    rfl

theorem splitOnChar_append {c : Char} {a : List Char} (b : List Char) (h : c ∉ a) :
    splitOnChar c (a ++ c :: b) = a :: splitOnChar c b := by
  induction a with
  | nil =>
    rw [List.nil_append, splitOnChar]
    rcases hs : splitOnChar c b with _ | ⟨h', t⟩
    · exact absurd hs (splitOnChar_ne_nil c b)
    · simp
  | cons x a' ih =>
    have hx : x ≠ c := fun hc => h (hc ▸ List.mem_cons_self x a')
    have ha' : c ∉ a' := fun hc => h (List.mem_cons_of_mem x hc)
    rw [List.cons_append, splitOnChar, ih ha']
    simp [hx]

theorem splitOnChar_length_ge_two {c : Char} {s : List Char} (h : c ∈ s) :
    2 ≤ (splitOnChar c s).length := by
  induction s with
  | nil => simp at h
  | cons x xs ih =>
    rw [splitOnChar]
    rcases hs : splitOnChar c xs with _ | ⟨h', t⟩
    · exact absurd hs (splitOnChar_ne_nil c xs)
    · by_cases hx : x = c
      · simp [hx]
      · have hxs : c ∈ xs := by
          rcases List.mem_cons.mp h with hc | hc
          · exact absurd hc.symm hx
          · exact hc
        have := ih hxs
        rw [hs] at this
        simp only [if_neg hx, List.length_cons]
        simpa using this

theorem segsToMap_none_of_no_eq {seg : List Char} (hne : seg ≠ []) (hno : '=' ∉ seg) :
    ∀ (segs : List (List Char)), seg ∈ segs → ∀ acc, segsToMap segs acc = none := by
  intro segs
  induction segs with
  | nil => intro hmem; exact absurd hmem (List.not_mem_nil seg)
  | cons s' rest ih =>
    intro hmem acc
    rw [segsToMap]
    rcases List.mem_cons.mp hmem with hmem | hmem
    · subst hmem
      rw [if_neg hne, splitOnChar_of_not_mem hno]
    · by_cases h0 : s' = []
      · rw [if_pos h0]
        exact ih hmem acc
      · rw [if_neg h0]
        rcases hkv : splitOnChar '=' s' with _ | ⟨k, _ | ⟨v, t⟩⟩
        · rfl
        · rfl
        · exact ih hmem _

theorem segsToMap_success :
    ∀ (segs : List (List Char)) (acc : List (List Char × List Char)),
      (∀ seg ∈ segs, seg ≠ [] → '=' ∈ seg) →
      ((parsePairs segs).map Prod.fst).Nodup →
      (∀ k ∈ (parsePairs segs).map Prod.fst, k ∉ acc.map Prod.fst) →
      segsToMap segs acc = some (acc ++ parsePairs segs) := by
  intro segs
  induction segs with
  | nil => intro acc _ _ _; simp [segsToMap, parsePairs]
  | cons seg rest ih =>
    intro acc hin hnodup hdisj
    rw [segsToMap]
    by_cases hseg : seg = []
    · rw [if_pos hseg]
      have hpp : parsePairs (seg :: rest) = parsePairs rest := by
        simp [parsePairs, hseg]
      rw [hpp] at hnodup hdisj ⊢
      exact ih acc (fun s hs h => hin s (List.mem_cons_of_mem _ hs) h) hnodup hdisj
    · rw [if_neg hseg]
      have h2 : 2 ≤ (splitOnChar '=' seg).length :=
        splitOnChar_length_ge_two (hin seg (List.mem_cons_self seg rest) hseg)
      rcases hkv : splitOnChar '=' seg with _ | ⟨k, _ | ⟨v, t⟩⟩
      · rw [hkv] at h2; simp at h2
      · rw [hkv] at h2; simp at h2
      · have hpp : parsePairs (seg :: rest) = (k, v) :: parsePairs rest := by
          simp [parsePairs, hkv, hseg]
        rw [hpp] at hnodup hdisj ⊢
        simp only [List.map_cons, List.nodup_cons] at hnodup
        obtain ⟨hknotrest, hnodup'⟩ := hnodup
        have hknotacc : k ∉ acc.map Prod.fst := hdisj k (by simp)
        show segsToMap rest (mapInsert acc k v) = some (acc ++ (k, v) :: parsePairs rest)
        rw [mapInsert_of_not_mem v hknotacc]
        have hdisj' : ∀ k' ∈ (parsePairs rest).map Prod.fst,
            k' ∉ (acc ++ [(k, v)]).map Prod.fst := by
          intro k' hk'
          rw [List.map_append]
          intro hc
          rcases List.mem_append.mp hc with hc | hc
          · exact hdisj k' (by simp [hk']) hc
          · simp only [List.map_cons, List.map_nil, List.mem_singleton] at hc
            exact hknotrest (hc ▸ hk')
        rw [ih (acc ++ [(k, v)]) (fun s hs h => hin s (List.mem_cons_of_mem _ hs) h)
          hnodup' hdisj']
        simp

theorem parsePairs_eq_segPairsF :
    ∀ segs : List (List Char),
      (∀ seg ∈ segs, seg ≠ [] → (splitOnChar '=' seg).length = 2) →
      parsePairs segs = segPairsF segs := by
  intro segs
  induction segs with
  | nil => intro _; rfl
  | cons seg rest ih =>
    intro hlen
    have hrest := ih (fun s hs h => hlen s (List.mem_cons_of_mem _ hs) h)
    by_cases hseg : seg = []
    · simp only [parsePairs, segPairsF, List.filterMap_cons, if_pos hseg]
      exact hrest
    · have h2 : (splitOnChar '=' seg).length = 2 :=
        hlen seg (List.mem_cons_self seg rest) hseg
      rcases hkv : splitOnChar '=' seg with _ | ⟨k, _ | ⟨v, t⟩⟩
      · rw [hkv] at h2; simp at h2
      · rw [hkv] at h2; simp at h2
      · have ht : t = [] := by
          rw [hkv] at h2
          simpa using h2
        subst ht
        have hsplit : seg = k ++ '=' :: v := splitOnChar_two hkv
        have hkfree : '=' ∉ k :=
          splitOnChar_sep_not_mem '=' seg k (by rw [hkv]; exact List.mem_cons_self k [v])
        have hfirst : splitFirst '=' seg = some (k, v) := by
          rw [hsplit]
          exact splitFirst_append v hkfree
        simp only [parsePairs, segPairsF, List.filterMap_cons, if_neg hseg, hkv, hfirst]
        simp only [parsePairs, segPairsF] at hrest
        rw [hrest]

theorem splitOnChar_display (m : List (List Char × List Char))
    (hfree : ∀ p ∈ m, ',' ∉ p.1 ++ '=' :: p.2) :
    splitOnChar ',' (cliKeyValuesDisplay m) =
      (m.map fun p => p.1 ++ '=' :: p.2) ++ [[]] := by
  induction m with
  | nil => rfl
  | cons p rest ih =>
    have hd : cliKeyValuesDisplay (p :: rest) =
        (p.1 ++ '=' :: p.2) ++ ',' :: cliKeyValuesDisplay rest := by
      simp [cliKeyValuesDisplay, List.append_assoc]
    rw [hd, splitOnChar_append _ (hfree p (List.mem_cons_self p rest)),
      ih (fun q hq => hfree q (List.mem_cons_of_mem p hq))]
    simp

theorem strPairs_display :
    ∀ m : List (List Char × List Char),
      (∀ p ∈ m, '=' ∉ p.1 ∧ ',' ∉ p.1 ∧ ',' ∉ p.2) →
      strPairs (cliKeyValuesDisplay m) = m := by
  intro m
  induction m with
  | nil => intro _; rfl
  | cons p rest ih =>
    intro hfree
    obtain ⟨h1, h2, h3⟩ := hfree p (List.mem_cons_self p rest)
    have hfree' : ',' ∉ p.1 ++ '=' :: p.2 := by
      intro hc
      rcases List.mem_append.mp hc with hc | hc
      · exact h2 hc
      · rcases List.mem_cons.mp hc with hc | hc
        · exact absurd hc (by decide)
        · exact h3 hc
    have hd : cliKeyValuesDisplay (p :: rest) =
        (p.1 ++ '=' :: p.2) ++ ',' :: cliKeyValuesDisplay rest := by
      simp [cliKeyValuesDisplay, List.append_assoc]
    have hne : (p.1 ++ '=' :: p.2) ≠ [] := by simp
    have hfirst : splitFirst '=' (p.1 ++ '=' :: p.2) = some (p.1, p.2) :=
      splitFirst_append p.2 h1
    have hrest := ih (fun q hq => hfree q (List.mem_cons_of_mem p hq))
    rw [strPairs, hd, splitOnChar_append _ hfree', segPairsF, List.filterMap_cons]
    simp only [if_neg hne, hfirst]
    rw [strPairs, segPairsF] at hrest
    rw [hrest]

theorem strPairs_entries_free {s : List Char} :
    ∀ p ∈ strPairs s, '=' ∉ p.1 ∧ ',' ∉ p.1 ∧ ',' ∉ p.2 := by
  intro p hp
  rw [strPairs, segPairsF] at hp
  obtain ⟨seg, hseg, hfp⟩ := List.mem_filterMap.mp hp
  by_cases h0 : seg = []
  · rw [if_pos h0] at hfp
    exact Option.noConfusion hfp
  · rw [if_neg h0] at hfp
    obtain ⟨hseq, hnfirst⟩ := splitFirst_eq hfp
    have hcomma : ',' ∉ seg := splitOnChar_sep_not_mem ',' s seg hseg
    refine ⟨hnfirst, ?_, ?_⟩
    · intro hc
      exact hcomma (hseq ▸ List.mem_append_left _ hc)
    · intro hc
      exact hcomma (hseq ▸ List.mem_append_right _ (List.mem_cons_of_mem _ hc))

/-- C9 counterexample: `"a=1,a=2"` is a list of key=value pairs, but
parsing it and rendering the result back via `Display` yields `"a=2,"`:
the pair `a=1` is lost (the hash-map insert overwrote it), so the
multiset of pairs is not preserved even up to reordering. -/
theorem cli_key_values_roundtrip_counterexample :
    cliKeyValuesFromStr ['a', '=', '1', ',', 'a', '=', '2'] = some [(['a'], ['2'])] ∧
    ¬ (strPairs (cliKeyValuesDisplay [(['a'], ['2'])])).Perm
        (strPairs ['a', '=', '1', ',', 'a', '=', '2']) :=
  ⟨by decide, by decide⟩

/-- C9 (amended): parsing the empty string yields the empty map; a
trailing comma is tolerated (empty segments are skipped); a segment
containing no `=` makes parsing fail; and parsing then rendering
(`Display`) preserves the multiset of key=value pairs provided no key
repeats and no segment contains more than one `=` — with a repeated key
the later value overwrites the earlier one (see the counterexample), so
the distinct-keys restriction is necessary. -/
theorem cli_key_values_parsing :
    cliKeyValuesFromStr [] = some [] ∧
    (∀ s : List Char, cliKeyValuesFromStr (s ++ [',']) = cliKeyValuesFromStr s) ∧
    (∀ (s seg : List Char), seg ∈ splitOnChar ',' s → seg ≠ [] → '=' ∉ seg →
      cliKeyValuesFromStr s = none) ∧
    (∀ s : List Char,
      (∀ seg ∈ splitOnChar ',' s, seg ≠ [] → (splitOnChar '=' seg).length = 2) →
      ((strPairs s).map Prod.fst).Nodup →
      cliKeyValuesFromStr s = some (strPairs s) ∧
      (strPairs (cliKeyValuesDisplay (strPairs s))).Perm (strPairs s)) := by
  refine ⟨rfl, ?_, ?_, ?_⟩
  · intro s
    rw [cliKeyValuesFromStr, cliKeyValuesFromStr, splitOnChar_append_sep,
      segsToMap_append_nil]
  · intro s seg hmem hne hno
    exact segsToMap_none_of_no_eq hne hno _ hmem []
  · intro s hlen hnodup
    have hin : ∀ seg ∈ splitOnChar ',' s, seg ≠ [] → '=' ∈ seg := by
      intro seg hs hne
      by_contra hno
      have h1 := hlen seg hs hne
      rw [splitOnChar_of_not_mem hno] at h1
      simp at h1
    have hpp := parsePairs_eq_segPairsF (splitOnChar ',' s) hlen
    have hsp : parsePairs (splitOnChar ',' s) = strPairs s := by
      rw [hpp]; rfl
    have hparse : cliKeyValuesFromStr s = some (strPairs s) := by
      rw [cliKeyValuesFromStr,
        segsToMap_success (splitOnChar ',' s) [] hin (by rw [hsp]; exact hnodup)
          (by intro k _ hc; simp at hc)]
      rw [List.nil_append, hsp]
    refine ⟨hparse, ?_⟩
    rw [strPairs_display (strPairs s) (fun p hp => strPairs_entries_free p hp)]

/-- Witness for the amended C9 at the concrete input `"a=1,b=2"`. -/
theorem cli_key_values_parsing_witness :
    cliKeyValuesFromStr ['a', '=', '1', ',', 'b', '=', '2'] =
      some [(['a'], ['1']), (['b'], ['2'])] ∧
    (strPairs (cliKeyValuesDisplay (strPairs ['a', '=', '1', ',', 'b', '=', '2']))).Perm
      (strPairs ['a', '=', '1', ',', 'b', '=', '2']) := by
  have h := (cli_key_values_parsing).2.2.2 ['a', '=', '1', ',', 'b', '=', '2']
    (by decide) (by decide)
  refine ⟨?_, h.2⟩
  rw [h.1]
  decide

end Cli

/-!
## Generator send loops (`tcp.rs`, `unix_stream.rs`, `grpc.rs`)

`Tcp::spin` and `UnixStream::spin` run a `select!` loop over three
arms: a connect attempt (guarded by the connection being absent), a
throttle grant followed by a write (guarded by the connection being
present), and shutdown.  The block receiver is peeked at the top of the
loop and advanced (`rcv.next()`) only inside the throttle arm.  The
environment's choices (which arm fires, connect and write outcomes) are
modelled as events; the `PeekableReceiver` is modelled from the spec:
`peek` returns the head block without consuming, `next` pops it.
-/

namespace Generator

/-- Counter increments a generator emits. -/
inductive MetricEvent where
  | connectionFailure (error : String)
  | requestFailure (error : String)
  | bytesWritten (n : Nat)
  | packetsSent (n : Nat)
  deriving DecidableEq

/-- Outcome of one `try_write` on the Unix stream
(`stream.try_write(&blk.bytes[blk_offset..])`). -/
inductive WriteOutcome where
  | wrote (n : Nat)
  | wouldBlock
  | errored (error : String)
  deriving DecidableEq

/-- State of the inner write loop of `UnixStream::spin`
(unix_stream.rs lines 204-245). `intervals` records the byte ranges
`[offset, offset + n)` of the block passed to successful `try_write`
calls; `done` is set when the loop exits via `blk_offset ≥ blk_max`. -/
structure WriteLoopState where
  offset : Nat
  bytesWritten : Nat
  packetsSent : Nat
  intervals : List (Nat × Nat)
  requestFailures : Nat
  connectionDropped : Bool
  done : Bool
  emitted : List MetricEvent
  deriving DecidableEq

/-- Initial state of the inner write loop (`blk_offset = 0`). -/
def initWriteLoopState : WriteLoopState :=
  { offset := 0, bytesWritten := 0, packetsSent := 0, intervals := []
    requestFailures := 0, connectionDropped := false, done := false, emitted := [] }

/-- Embedding of the inner write loop of `UnixStream::spin`: while
`blk_offset < blk_max`, wait for writability and `try_write` the rest
of the block.  On `Ok(bytes)` the source executes `blk_offset = bytes`
— an assignment, not an increment.  `WouldBlock` yields and retries; an
error emits `request_failure`, drops the connection and breaks.  The
list of outcomes is the environment; if it is exhausted the loop is
still running. -/
def unixWriteLoop (blkMax : Nat) : List WriteOutcome → WriteLoopState → WriteLoopState
  | outcomes, st =>
    if st.offset < blkMax then
      match outcomes with
      | [] => st
      | o :: os =>
        match o with
        | .wrote n =>
          unixWriteLoop blkMax os
            { st with
              offset := n
              bytesWritten := st.bytesWritten + n
              packetsSent := st.packetsSent + 1
              intervals := st.intervals ++ [(st.offset, st.offset + n)]
              emitted := st.emitted ++ [.bytesWritten n, .packetsSent 1] }
        | .wouldBlock => unixWriteLoop blkMax os st
        | .errored err =>
          { st with requestFailures := st.requestFailures + 1, connectionDropped := true
                    emitted := st.emitted ++ [.requestFailure err] }
    else
      { st with done := true }

/-- Validity of an outcome list against the slice lengths actually
offered to `try_write`: a successful write returns at least one byte
and at most the length of the remaining slice. -/
def validOutcomes (blkMax : Nat) : List WriteOutcome → Nat → Bool
  | [], _ => true
  | o :: os, offset =>
    if offset < blkMax then
      match o with
      | .wrote n => decide (1 ≤ n) && decide (n ≤ blkMax - offset) && validOutcomes blkMax os n
      | .wouldBlock => validOutcomes blkMax os offset
      | .errored _ => true
    else
      true

/-- Two half-open intervals overlap. -/
def intervalsOverlap (a b : Nat × Nat) : Bool :=
  decide (a.1 < b.2) && decide (b.1 < a.2)

/-- Some pair of intervals in the list overlaps (a byte written twice). -/
def anyOverlap : List (Nat × Nat) → Bool
  | [] => false
  | a :: rest => rest.any (fun b => intervalsOverlap a b) || anyOverlap rest

/-- State of the outer `select!` loop of `Tcp::spin` and
`UnixStream::spin`: whether a live connection is held, and the block
queue behind the peekable receiver (head = the block `peek` returns,
sizes only). -/
structure SpinState where
  connected : Bool
  queue : List Nat
  deriving DecidableEq

/-- Result of one loop iteration: continue with a new state, the
metrics emitted during the iteration and any sleep performed, or
return from `spin`. -/
inductive StepResult where
  | next (s : SpinState) (emitted : List MetricEvent) (sleepMillis : Nat)
  | exited (ok : Bool)
  deriving DecidableEq

/-- One `select!` arm of `Tcp::spin` firing, with the outcome the
environment chose. -/
inductive TcpEvent where
  | connectOk
  | connectErr (error : String)
  | throttleWrite (ok : Bool) (error : String)
  | shutdown
  deriving DecidableEq

/-- `select!` guards of `Tcp::spin`: connect arms fire only while
`connection.is_none()`, the throttle arm only while
`connection.is_some()` (and a block was peeked). -/
def tcpEnabled (s : SpinState) : TcpEvent → Prop
  | .connectOk => s.connected = false
  | .connectErr _ => s.connected = false
  | .throttleWrite _ _ => s.connected = true ∧ s.queue ≠ []
  | .shutdown => True

/-- Embedding of the `select!` body of `Tcp::spin` (tcp.rs lines
170-214): connect success stores the connection; connect failure
increments `connection_failure` labelled with the error and sleeps 1 s;
the throttle arm advances the receiver (`rcv.next()`), writes the whole
block (`write_all`), incrementing `bytes_written` and `packets_sent` on
success and `request_failure` (dropping the connection) on error;
shutdown returns `Ok`. -/
def tcpStep (s : SpinState) : TcpEvent → StepResult
  | .connectOk => .next { s with connected := true } [] 0
  | .connectErr err => .next s [.connectionFailure err] 1000
  | .throttleWrite ok err =>
    match s.queue with
    | [] => .exited false
    | blk :: rest =>
      if ok then
        .next { connected := true, queue := rest } [.bytesWritten blk, .packetsSent 1] 0
      else
        .next { connected := false, queue := rest } [.requestFailure err] 0
  | .shutdown => .exited true

/-- One `select!` arm of `UnixStream::spin` firing; the throttle arm
carries the `try_write` outcomes the environment will supply to the
inner write loop. -/
inductive UnixEvent where
  | connectOk
  | connectErr (error : String)
  | throttleWrite (outcomes : List WriteOutcome)
  | shutdown

/-- `select!` guards of `UnixStream::spin`. -/
def unixEnabled (s : SpinState) : UnixEvent → Prop
  | .connectOk => s.connected = false
  | .connectErr _ => s.connected = false
  | .throttleWrite _ => s.connected = true ∧ s.queue ≠ []
  | .shutdown => True

/-- Embedding of the `select!` body of `UnixStream::spin`
(unix_stream.rs lines 178-252): connect success stores the stream;
connect failure increments `connection_failure` labelled with the error
and performs no sleep; the throttle arm advances the receiver and runs
the inner write loop, after which the stream is retained unless a write
error dropped it; shutdown returns `Ok`. -/
def unixStep (s : SpinState) : UnixEvent → StepResult
  | .connectOk => .next { s with connected := true } [] 0
  | .connectErr err => .next s [.connectionFailure err] 0
  | .throttleWrite outcomes =>
    match s.queue with
    | [] => .exited false
    | blk :: rest =>
      let fin := unixWriteLoop blk outcomes initWriteLoopState
      .next { connected := !fin.connectionDropped, queue := rest } fin.emitted 0
  | .shutdown => .exited true

/-- Embedding of the pre-loop connect retry of `Grpc::spin`
(grpc.rs lines 276-283): each failed attempt produces only a debug log
and a 100 ms sleep — no `connection_failure` counter; the loop retries
until an attempt succeeds.  Returns the metrics emitted, the total
sleep, and whether a connection was obtained. -/
def grpcConnectPhase : List Bool → List MetricEvent × Nat × Bool
  | [] => ([], 0, false)
  | ok :: rest =>
    if ok then ([], 0, true)
    else
      let r := grpcConnectPhase rest
      (r.1, r.2.1 + 100, r.2.2)

/-- The state after one iteration (unchanged when `spin` returned). -/
def tcpStepState (s : SpinState) (e : TcpEvent) : SpinState :=
  match tcpStep s e with
  | .next s' _ _ => s'
  | .exited _ => s

/-- C4: the claim fails on the code.  For a 3-byte block whose
`try_write` calls accept 2, 1 and 2 bytes — each a valid partial write
for the slice the code offered — the loop has emitted 5 bytes for the
3-byte block, the written ranges `[0,2)`, `[2,3)`, `[1,3)` overlap
(bytes 1 and 2 are sent twice), and the loop has still not finished:
the source executes `blk_offset = bytes` where the remainder-write
intent requires `blk_offset += bytes`. -/
theorem unix_write_loop_partial_write_bug :
    validOutcomes 3 [.wrote 2, .wrote 1, .wrote 2] 0 = true ∧
    (unixWriteLoop 3 [.wrote 2, .wrote 1, .wrote 2] initWriteLoopState).bytesWritten = 5 ∧
    (unixWriteLoop 3 [.wrote 2, .wrote 1, .wrote 2] initWriteLoopState).intervals =
      [(0, 2), (2, 3), (1, 3)] ∧
    anyOverlap (unixWriteLoop 3 [.wrote 2, .wrote 1, .wrote 2] initWriteLoopState).intervals =
      true ∧
    (unixWriteLoop 3 [.wrote 2, .wrote 1, .wrote 2] initWriteLoopState).done = false ∧
    (unixWriteLoop 3 [.wrote 2, .wrote 1, .wrote 2] initWriteLoopState).connectionDropped =
      false := by
  decide

/-- C5 counterexample: the Unix-stream generator's connect-failure arm
sleeps 0 ms (< 100 ms), and the gRPC connect retry emits no
`connection_failure` counter for its failed attempt, refuting the
claim that every generator both emits the labelled counter and sleeps
at least 100 ms. -/
theorem generator_connect_failure_counterexample :
    unixStep { connected := false, queue := [] } (.connectErr "connection refused") =
      .next { connected := false, queue := [] }
        [.connectionFailure "connection refused"] 0 ∧
    ¬ (100 : Nat) ≤ 0 ∧
    grpcConnectPhase [false, true] = ([], 100, true) :=
  ⟨rfl, by decide, rfl⟩

/-- C5 (amended): connection failures are non-fatal in all three
generators, but their handling differs.  TCP increments
`connection_failure` labelled with the error and sleeps 1 s before the
next attempt; Unix-stream increments the labelled counter but performs
no sleep; gRPC sleeps 100 ms per failed attempt before retrying but
emits no `connection_failure` counter. -/
theorem generator_connect_failure_behaviour :
    (∀ (s : SpinState) (err : String),
      tcpStep s (.connectErr err) = .next s [.connectionFailure err] 1000) ∧
    (∀ (s : SpinState) (err : String),
      unixStep s (.connectErr err) = .next s [.connectionFailure err] 0) ∧
    (∀ attempts : List Bool,
      (grpcConnectPhase attempts).1 = [] ∧
      (grpcConnectPhase attempts).2.1 =
        100 * (attempts.takeWhile (fun a => !a)).length) := by
  refine ⟨fun s err => rfl, fun s err => rfl, fun attempts => ?_⟩
  induction attempts with
  | nil => exact ⟨rfl, rfl⟩
  | cons ok rest ih =>
    by_cases h : ok = true
    · subst h
      exact ⟨rfl, rfl⟩
    · have hf : ok = false := by simpa using h
      subst hf
      rw [grpcConnectPhase]
      refine ⟨ih.1, ?_⟩
      simp only [List.takeWhile_cons, Bool.not_false, if_pos rfl]
      rw [ih.2]
      simp [List.length_cons, Nat.mul_add, Nat.mul_succ]

/-- C6: while no live connection is held, neither `Tcp::spin` nor
`UnixStream::spin` consumes a block: every enabled event in a
disconnected state that continues the loop leaves the receiver's queue
unchanged, and any number of failed TCP connection attempts leaves the
head of the block stream where it was. -/
theorem generator_disconnected_no_consume :
    (∀ (s : SpinState) (e : TcpEvent) (s' : SpinState) (m : List MetricEvent)
        (sl : Nat), s.connected = false → tcpEnabled s e →
        tcpStep s e = .next s' m sl → s'.queue = s.queue) ∧
    (∀ (s : SpinState) (e : UnixEvent) (s' : SpinState) (m : List MetricEvent)
        (sl : Nat), s.connected = false → unixEnabled s e →
        unixStep s e = .next s' m sl → s'.queue = s.queue) ∧
    (∀ (s : SpinState) (errs : List String), s.connected = false →
      ((errs.map TcpEvent.connectErr).foldl tcpStepState s).queue = s.queue) := by
  refine ⟨?_, ?_, ?_⟩
  · intro s e s' m sl hconn _he hstep
    cases e with
    | connectOk =>
      rw [tcpStep] at hstep
      injection hstep with h1 _ _
      rw [← h1]
    | connectErr err =>
      rw [tcpStep] at hstep
      injection hstep with h1 _ _
      rw [← h1]
    | throttleWrite ok err =>
      exact absurd _he.1 (by rw [hconn]; decide)
    | shutdown =>
      rw [tcpStep] at hstep
      exact StepResult.noConfusion hstep
  · intro s e s' m sl hconn _he hstep
    cases e with
    | connectOk =>
      rw [unixStep] at hstep
      injection hstep with h1 _ _
      rw [← h1]
    | connectErr err =>
      rw [unixStep] at hstep
      injection hstep with h1 _ _
      rw [← h1]
    | throttleWrite outcomes =>
      exact absurd _he.1 (by rw [hconn]; decide)
    | shutdown =>
      rw [unixStep] at hstep
      exact StepResult.noConfusion hstep
  · intro s errs hconn
    induction errs generalizing s with
    | nil => rfl
    | cons err rest ih =>
      have hstate : tcpStepState s (.connectErr err) = s := rfl
      rw [List.map_cons, List.foldl_cons, hstate]
      exact ih s hconn

/-- Witness for C6 at a concrete disconnected state with one pending
block and a failed connect: the queue still holds the block. -/
theorem generator_disconnected_no_consume_witness :
    ({ connected := false, queue := [7] } : SpinState).connected = false ∧
    tcpEnabled { connected := false, queue := [7] } (.connectErr "refused") ∧
    tcpStep { connected := false, queue := [7] } (.connectErr "refused") =
      .next { connected := false, queue := [7] } [.connectionFailure "refused"] 1000 ∧
    ({ connected := false, queue := [7] } : SpinState).queue = [7] := by
  refine ⟨rfl, rfl, rfl, ?_⟩
  exact (generator_disconnected_no_consume.1
    { connected := false, queue := [7] } (.connectErr "refused")
    { connected := false, queue := [7] } [.connectionFailure "refused"] 1000
    rfl rfl rfl) ▸ rfl

end Generator

/-!
## Run orchestration (`src/lading/src/bin/lading.rs`)

`get_config` (lines 162-244) resolves the telemetry configuration from
the CLI flags and the config file; `inner_main` (lines 246-407) builds
the telemetry sink, spawns the workers and synchronises on target
startup before racing the experiment clock.
-/

namespace Orchestrator

/-- `lading::config::Telemetry`: a Prometheus exporter or a capture
log. -/
inductive Telemetry where
  | prometheus (prometheusAddr : String) (globalLabels : List (String × String))
  | log (path : String) (globalLabels : List (String × String))
  deriving DecidableEq

/-- The `for (k, v) in options_global_labels.inner` merge loop: one map
insert per CLI label. -/
def mergeLabels (base extra : List (String × String)) : List (String × String) :=
  extra.foldl (fun m p => Cli.mapInsert m p.1 p.2) base

/-- Embedding of the telemetry selection of `get_config` (lines
212-242): the `--prometheus-addr` branch is checked first, then
`--capture-path`, else the config file's telemetry with the CLI labels
merged in. -/
def getConfigTelemetry (prometheusAddr capturePath : Option String)
    (optionsGlobalLabels : List (String × String)) (fileTelemetry : Telemetry) :
    Telemetry :=
  match prometheusAddr with
  | some addr => .prometheus addr optionsGlobalLabels
  | none =>
    match capturePath with
    | some path => .log path optionsGlobalLabels
    | none =>
      match fileTelemetry with
      | .prometheus addr labels => .prometheus addr (mergeLabels labels optionsGlobalLabels)
      | .log path labels => .log path (mergeLabels labels optionsGlobalLabels)

/-- C3: the claim fails in the code and the code contradicts its own
CLI help text ("path on disk to write captures, will override
prometheus-addr if both are set").  With both flags given,
`get_config` returns the Prometheus telemetry, because the
`ops.prometheus_addr` branch is checked before `ops.capture_path`;
evaluated here at a concrete pair of flags. -/
theorem get_config_both_flags_prometheus_wins :
    getConfigTelemetry (some "0.0.0.0:9000") (some "/tmp/captures") []
      (.log "/from/config/file" []) = .prometheus "0.0.0.0:9000" [] :=
  rfl

/-- Setup actions `inner_main` performs, in program order. -/
inductive OrchAction where
  | installPrometheus
  | installCaptureLog
  | spawnGenerator
  | spawnInspector
  | spawnBlackhole
  | spawnTargetMetrics
  | spawnObserver
  | spawnTarget
  | broadcastTargetStarted
  | enterExperiment
  deriving DecidableEq

/-- The parts of `Config` that drive `inner_main`'s setup. -/
structure RunConfig where
  telemetryIsLog : Bool
  generators : Nat
  inspector : Bool
  blackholes : Nat
  targetMetrics : Nat
  hasTarget : Bool

/-- Embedding of the setup sequence of `inner_main` (lines 246-380):
install the telemetry sink; spawn the generators; the inspector when
configured and not disabled; the blackholes; the target-metrics
scrapers; then, if a target is configured, spawn the observer and the
target server, else broadcast `None` on the target-start channel
(`tgt_snd.send(None)`); finally enter the warmup/experiment race. -/
def innerMainActions (cfg : RunConfig) (disableInspector : Bool) : List OrchAction :=
  (if cfg.telemetryIsLog then [.installCaptureLog] else [.installPrometheus]) ++
  List.replicate cfg.generators .spawnGenerator ++
  (if cfg.inspector && !disableInspector then [.spawnInspector] else []) ++
  List.replicate cfg.blackholes .spawnBlackhole ++
  List.replicate cfg.targetMetrics .spawnTargetMetrics ++
  (if cfg.hasTarget then [.spawnObserver, .spawnTarget]
   else [.broadcastTargetStarted]) ++
  [.enterExperiment]

/-- C8: with `--no-target`, `inner_main` publishes the synthetic `None`
target-start broadcast, and does so before entering the experiment
phase, so every subscriber blocked on target startup is unblocked; the
observer and the target server are spawned only when a target is
configured. -/
theorem no_target_broadcasts_start_signal (cfg : RunConfig) (disableInspector : Bool) :
    (cfg.hasTarget = false →
      (∃ pre, innerMainActions cfg disableInspector = pre ++ [.enterExperiment] ∧
        OrchAction.broadcastTargetStarted ∈ pre) ∧
      OrchAction.spawnObserver ∉ innerMainActions cfg disableInspector ∧
      OrchAction.spawnTarget ∉ innerMainActions cfg disableInspector) ∧
    (cfg.hasTarget = true →
      OrchAction.spawnObserver ∈ innerMainActions cfg disableInspector ∧
      OrchAction.spawnTarget ∈ innerMainActions cfg disableInspector ∧
      OrchAction.broadcastTargetStarted ∉ innerMainActions cfg disableInspector) := by
  constructor
  · intro h
    refine ⟨⟨(if cfg.telemetryIsLog then [.installCaptureLog] else [.installPrometheus]) ++
      List.replicate cfg.generators .spawnGenerator ++
      (if cfg.inspector && !disableInspector then [.spawnInspector] else []) ++
      List.replicate cfg.blackholes .spawnBlackhole ++
      List.replicate cfg.targetMetrics .spawnTargetMetrics ++
      [.broadcastTargetStarted], ?_, ?_⟩, ?_, ?_⟩
    · rw [innerMainActions, h]
      simp [List.append_assoc]
    · simp
    · rw [innerMainActions, h]
      simp only [List.mem_append, List.mem_replicate, List.mem_singleton]
      split_ifs <;> simp_all
    · rw [innerMainActions, h]
      simp only [List.mem_append, List.mem_replicate, List.mem_singleton]
      split_ifs <;> simp_all
  · intro h
    rw [innerMainActions, h]
    refine ⟨?_, ?_, ?_⟩
    · simp
    · simp
    · simp only [List.mem_append, List.mem_replicate, List.mem_singleton]
      split_ifs <;> simp

/-- Witness for C8 at a concrete no-target configuration. -/
theorem no_target_broadcasts_start_signal_witness :
    (∃ pre, innerMainActions
        { telemetryIsLog := true, generators := 1, inspector := false,
          blackholes := 0, targetMetrics := 0, hasTarget := false } false =
          pre ++ [.enterExperiment] ∧
        OrchAction.broadcastTargetStarted ∈ pre) ∧
    OrchAction.spawnObserver ∉ innerMainActions
      { telemetryIsLog := true, generators := 1, inspector := false,
        blackholes := 0, targetMetrics := 0, hasTarget := false } false ∧
    OrchAction.spawnTarget ∉ innerMainActions
      { telemetryIsLog := true, generators := 1, inspector := false,
        blackholes := 0, targetMetrics := 0, hasTarget := false } false :=
  (no_target_broadcasts_start_signal
    { telemetryIsLog := true, generators := 1, inspector := false,
      blackholes := 0, targetMetrics := 0, hasTarget := false } false).1 rfl

end Orchestrator

/-!
## File generator (`src/lading/src/generator/file_gen.rs`)

`Child::spin` (lines 242-314) writes blocks into a buffered file and
rotates it when the per-file byte total exceeds
`maximum_bytes_per_file`: flush, unlink when `rotate`, fetch-add the
shared `file_index` counter, render the new path with
`path_from_template` (lines 317-322) and open it, and reset the total.
-/

namespace FileGen

/-- Decimal digit to its ASCII character. -/
def digitChar (d : Nat) : Char := Char.ofNat (48 + d)

def natDigitsAux : Nat → Nat → List Char
  | 0, _ => []
  | fuel + 1, n =>
    if n < 10 then [digitChar n]
    else natDigitsAux fuel (n / 10) ++ [digitChar (n % 10)]

/-- Decimal digits of `n`, most significant first. -/
def natDigits (n : Nat) : List Char := natDigitsAux (n + 1) n

/-- Rust `format!("{index:04}")`: the decimal digits left-padded with
`0` to width 4 (wider numbers are not truncated). -/
def zeroPad4 (n : Nat) : List Char :=
  List.replicate (4 - (natDigits n).length) '0' ++ natDigits n

/-- Rust `str::replace("%NNN%", rep)`: replace every non-overlapping
occurrence of `%NNN%`, scanning left to right. -/
def replaceNNN (rep : List Char) : List Char → List Char
  | '%' :: 'N' :: 'N' :: 'N' :: '%' :: rest => rep ++ replaceNNN rep rest
  | c :: rest => c :: replaceNNN rep rest
  | [] => []

/-- Embedding of `path_from_template`. -/
def path_from_template (pathTemplate : List Char) (index : Nat) : List Char :=
  replaceNNN (zeroPad4 index) pathTemplate

/-- Per-child loop state, together with the shared atomic `file_index`
counter and the paths currently linked on disk. -/
structure ChildState where
  sharedCounter : Nat
  fileIndex : Nat
  path : List Char
  totalBytesWritten : Nat
  linked : List (List Char)
  deriving DecidableEq

/-- Filesystem actions of one loop iteration, in order. -/
inductive FileAction where
  | wrote (n : Nat)
  | flushed
  | removed (path : List Char)
  | opened (path : List Char)
  deriving DecidableEq

/-- Opening with `create(true)` links the path (no duplicates). -/
def addLinked (linked : List (List Char)) (p : List Char) : List (List Char) :=
  if p ∈ linked then linked else linked ++ [p]

/-- `fs::remove_file`: the path no longer resolves. -/
def removeLinked (linked : List (List Char)) (p : List Char) : List (List Char) :=
  linked.filter (fun q => decide (q ≠ p))

/-- Embedding of the throttle arm of `Child::spin` (lines 272-306):
write the block and add it to the per-file total; when the new total
exceeds `maximum_bytes_per_file`, flush, unlink the old path when
`rotate`, fetch-add the shared index, render and open the new path,
and reset the per-file total to zero. -/
def childStep (pathTemplate : List Char) (maximumBytesPerFile : Nat) (rotate : Bool)
    (s : ChildState) (blockSize : Nat) : ChildState × List FileAction :=
  let total := s.totalBytesWritten + blockSize
  if total > maximumBytesPerFile then
    let newIndex := s.sharedCounter
    let newPath := path_from_template pathTemplate newIndex
    ({ sharedCounter := s.sharedCounter + 1
       fileIndex := newIndex
       path := newPath
       totalBytesWritten := 0
       linked := addLinked (if rotate then removeLinked s.linked s.path else s.linked)
         newPath },
     [.wrote blockSize, .flushed] ++ (if rotate then [.removed s.path] else []) ++
       [.opened newPath])
  else
    ({ s with totalBytesWritten := total }, [.wrote blockSize])

theorem not_mem_removeLinked (l : List (List Char)) (p : List Char) :
    p ∉ removeLinked l p := by
  simp [removeLinked, List.mem_filter]

theorem not_mem_addLinked {l : List (List Char)} {a p : List Char}
    (h1 : a ∉ l) (h2 : a ≠ p) : a ∉ addLinked l p := by
  rw [addLinked]
  split
  · exact h1
  · simp [h1, h2]

/-- C7: when the running per-file total exceeds
`maximum_bytes_per_file`, the child flushes and continues into a
freshly opened file whose index is the previous index plus one (the
shared counter is one ahead of the child's index, as for a single
worker), the index rendered into the path by replacing `%NNN%` with
the zero-padded width-4 index; the per-file total resets to zero and,
when `rotate = true`, the previous path no longer resolves. -/
theorem file_gen_rotation (pathTemplate : List Char) (maxBytes : Nat) (rotate : Bool)
    (s : ChildState) (blockSize : Nat)
    (hctr : s.sharedCounter = s.fileIndex + 1)
    (hover : s.totalBytesWritten + blockSize > maxBytes)
    (hneq : path_from_template pathTemplate (s.fileIndex + 1) ≠ s.path) :
    (childStep pathTemplate maxBytes rotate s blockSize).1.fileIndex = s.fileIndex + 1 ∧
    (childStep pathTemplate maxBytes rotate s blockSize).1.path =
      path_from_template pathTemplate (s.fileIndex + 1) ∧
    (childStep pathTemplate maxBytes rotate s blockSize).1.totalBytesWritten = 0 ∧
    (childStep pathTemplate maxBytes rotate s blockSize).1.sharedCounter =
      s.fileIndex + 2 ∧
    (childStep pathTemplate maxBytes rotate s blockSize).2 =
      [.wrote blockSize, .flushed] ++ (if rotate then [.removed s.path] else []) ++
        [.opened (path_from_template pathTemplate (s.fileIndex + 1))] ∧
    (rotate = true → s.path ∉ (childStep pathTemplate maxBytes rotate s blockSize).1.linked) := by
  rw [childStep]
  simp only [hctr, if_pos hover]
  refine ⟨trivial, trivial, trivial, trivial, trivial, ?_⟩
  intro hrot
  subst hrot
  simp only [if_pos rfl]
  exact not_mem_addLinked (not_mem_removeLinked s.linked s.path) (Ne.symm hneq)

/-- Witness for C7: a single-worker child on template `"%NNN%"` at
index 0 with 8 of 10 bytes used writes a 5-byte block and rotates into
`"0001"`, unlinking `"0000"`. -/
theorem file_gen_rotation_witness :
    (childStep ['%', 'N', 'N', 'N', '%'] 10 true
        { sharedCounter := 1, fileIndex := 0,
          path := path_from_template ['%', 'N', 'N', 'N', '%'] 0,
          totalBytesWritten := 8,
          linked := [path_from_template ['%', 'N', 'N', 'N', '%'] 0] } 5).1.fileIndex = 1 ∧
    (childStep ['%', 'N', 'N', 'N', '%'] 10 true
        { sharedCounter := 1, fileIndex := 0,
          path := path_from_template ['%', 'N', 'N', 'N', '%'] 0,
          totalBytesWritten := 8,
          linked := [path_from_template ['%', 'N', 'N', 'N', '%'] 0] } 5).1.totalBytesWritten
      = 0 ∧
    path_from_template ['%', 'N', 'N', 'N', '%'] 0 ∉
      (childStep ['%', 'N', 'N', 'N', '%'] 10 true
        { sharedCounter := 1, fileIndex := 0,
          path := path_from_template ['%', 'N', 'N', 'N', '%'] 0,
          totalBytesWritten := 8,
          linked := [path_from_template ['%', 'N', 'N', 'N', '%'] 0] } 5).1.linked := by
  have h := file_gen_rotation ['%', 'N', 'N', 'N', '%'] 10 true
    { sharedCounter := 1, fileIndex := 0,
      path := path_from_template ['%', 'N', 'N', 'N', '%'] 0,
      totalBytesWritten := 8,
      linked := [path_from_template ['%', 'N', 'N', 'N', '%'] 0] } 5
    rfl (by decide) (by decide)
  exact ⟨h.1, h.2.2.1, h.2.2.2.2.2 rfl⟩

end FileGen

end Lading
